import Mathlib

/-!
Shallow embedding of the ipscan-rs scanning engine.

Rust strings are modelled as `List Char`; machine integers as `Nat` with
explicit `% 2 ^ w` at every operation where Rust release-mode wrapping can
occur.  Each definition is translated from the named source function.
-/

namespace IpscanRs

/-! ## Character/string primitives (models of the `str` methods the code uses) -/

/-- Model of Rust `char::is_whitespace` restricted to what matters here
(the characters that can occur around port tokens). -/
def isWs (c : Char) : Bool := c.isWhitespace

/-- Model of `str::trim` (left side): drop leading whitespace. -/
def trimLeft (l : List Char) : List Char := l.dropWhile isWs

/-- Model of `str::trim` (right side): drop trailing whitespace. -/
def trimRight (l : List Char) : List Char := (l.reverse.dropWhile isWs).reverse

/-- Model of `str::trim`: drop whitespace from both ends. -/
def trim (l : List Char) : List Char := trimRight (trimLeft l)

/-- Model of Rust `str::split(c)`: split on every occurrence of `c`;
the empty string yields one empty piece, a trailing separator yields a
trailing empty piece (exactly Rust's `split` semantics for a `char` pattern). -/
def splitOnChar (c : Char) : List Char → List (List Char)
  | [] => [[]]
  | x :: xs =>
    match splitOnChar c xs with
    | [] => [[x]]
    | y :: ys => if x = c then [] :: y :: ys else (x :: y) :: ys

/-- Model of `Vec<String>::join(",")` / `[T]::join`: interleave the separator
character between the pieces. -/
def interChar (c : Char) : List (List Char) → List Char
  | [] => []
  | [t] => t
  | t :: ts => t ++ c :: interChar c ts

/-- The ten ASCII digit characters. -/
def digitChars : List Char := ['0', '1', '2', '3', '4', '5', '6', '7', '8', '9']

/-- Decimal digit for a value below ten (only ever applied to `n % 10`). -/
def digitChar : Nat → Char
  | 0 => '0'
  | 1 => '1'
  | 2 => '2'
  | 3 => '3'
  | 4 => '4'
  | 5 => '5'
  | 6 => '6'
  | 7 => '7'
  | 8 => '8'
  | 9 => '9'
  | _ => '?'

/-- Value of an ASCII digit character, `none` on any other character
(model of the per-character step of `u16::from_str`). -/
def digitVal (c : Char) : Option Nat :=
  if c.isDigit then some (c.toNat - 48) else none

/-- Fold decimal digits left to right; fails on the first non-digit. -/
def digitsAcc (acc : Nat) : List Char → Option Nat
  | [] => some acc
  | c :: cs =>
    match digitVal c with
    | some d => digitsAcc (acc * 10 + d) cs
    | none => none

/-- Model of `u16::from_str`: optional leading `+`, then one or more decimal
digits, value at most 65535.  (Rust checks overflow during the fold; since the
only observable outcome is success-with-value or failure, folding first and
checking the bound afterwards is the same function.) -/
def parseU16 (cs : List Char) : Option Nat :=
  match cs with
  | [] => none
  | c :: rest =>
    let ds := if c = '+' then rest else c :: rest
    if ds = [] then none
    else
      match digitsAcc 0 ds with
      | none => none
      | some n => if n ≤ 65535 then some n else none

/-- Decimal representation of a `Nat` (model of `Display` for `u16`/`u128`). -/
def natDigits (n : Nat) : List Char :=
  if _h : n < 10 then [digitChar n]
  else natDigits (n / 10) ++ [digitChar (n % 10)]
  termination_by n
  decreasing_by exact Nat.div_lt_self (by omega) (by omega)

/-! ## `src/core/port_iterator.rs` -/

/-- Cap on the number of port entries (`MAX_PORTS` in `PortIterator::new`). -/
def MAX_PORTS : Nat := 65535

/-- Structured stand-in for the `String` error messages of `PortIterator::new`;
each constructor corresponds to exactly one `Err(format!(..))` site, carrying
the same payload. -/
inductive PortParseError where
  | invalidPortRange (part : List Char)
  | invalidPortNumber (tok : List Char)
  | invalidRangeOrder (lo hi : Nat)
  | tooManyPorts
  | tooManyUniquePorts
deriving DecidableEq

/-- One iteration of the `for part in port_string.split(',')` loop body of
`PortIterator::new`: parse one comma-separated token and append its expansion
to the accumulated `ports` vector.  `List.range' lo (hi - lo + 1)` is exactly
the `for port in start..=end` push loop. -/
def parsePart (ports : List Nat) (part : List Char) : Except PortParseError (List Nat) :=
  if '-' ∈ trim part then
    match splitOnChar '-' (trim part) with
    | [r0, r1] =>
      match parseU16 (trim r0) with
      | none => .error (.invalidPortNumber r0)
      | some lo =>
        match parseU16 (trim r1) with
        | none => .error (.invalidPortNumber r1)
        | some hi =>
          if lo > hi then .error (.invalidRangeOrder lo hi)
          else if ports.length + (hi - lo + 1) > MAX_PORTS then .error .tooManyPorts
          else .ok (ports ++ List.range' lo (hi - lo + 1))
    | _ => .error (.invalidPortRange (trim part))
  else
    match parseU16 (trim part) with
    | none => .error (.invalidPortNumber (trim part))
    | some p => .ok (ports ++ [p])

/-- The whole token loop of `PortIterator::new`. -/
def parseParts : List (List Char) → List Nat → Except PortParseError (List Nat)
  | [], ports => .ok ports
  | part :: rest, ports =>
    match parsePart ports part with
    | .error e => .error e
    | .ok ports' => parseParts rest ports'

/-- Model of `Vec::sort_unstable` on the `Nat` port list.  On a list of
naturals the sorted result is determined by the multiset alone, so any
correct sorting algorithm is the same function; we use insertion sort. -/
def sortList (l : List Nat) : List Nat := List.insertionSort (· ≤ ·) l

/-- Model of `Vec::dedup`: remove consecutive equal elements. -/
def dedupConsec : List Nat → List Nat
  | [] => []
  | [a] => [a]
  | a :: b :: rest =>
    if a = b then dedupConsec (b :: rest) else a :: dedupConsec (b :: rest)

/-- Model of `PortIterator::new`: split on commas, expand every token
(checking the cap before materialising each sub-range), then sort, dedup and
re-check the cap.  The resulting list is the exact sequence the iterator
yields. -/
def PortIterator.new (port_string : List Char) : Except PortParseError (List Nat) :=
  match parseParts (splitOnChar ',' port_string) [] with
  | .error e => .error e
  | .ok ports =>
    let ports := dedupConsec (sortList ports)
    if ports.length > MAX_PORTS then .error .tooManyUniquePorts
    else .ok ports

/-! ## `src/errors.rs` -/

/-- Model of `ScanError` (variants not exercised by the claims keep their
payload as a message string). -/
inductive ScanError where
  | network (msg : List Char)
  | invalidRange
  | pingFailed (msg : List Char)
  | portScanFailed (err : PortParseError)
  | dnsResolutionFailed (msg : List Char)
deriving DecidableEq

/-! ## `src/feeders/range.rs` -/

/-- Model of `std::net::IpAddr`: each address is its big-endian integer
(`u32::from_be_bytes` of the v4 octets, `u128::from_be_bytes` of the v6
octets) — precisely the representation the iteration code converts to. -/
inductive Ip where
  | v4 (n : Nat)
  | v6 (n : Nat)
deriving DecidableEq

/-- Model of `RangeFeeder` (field `endAddr` stands for the Rust field `end`,
which is a reserved word in Lean). -/
structure RangeFeeder where
  current : Ip
  endAddr : Ip
  finished : Bool
deriving DecidableEq

/-- Model of `RangeFeeder::new`: families must match and `start <= end`
(for same-family addresses the derived `Ord` on `IpAddr` is the numeric
order of the big-endian integers). -/
def RangeFeeder.new (start endAddr : Ip) : Except ScanError RangeFeeder :=
  match start, endAddr with
  | .v4 s, .v4 e =>
    if s > e then .error .invalidRange else .ok ⟨.v4 s, .v4 e, false⟩
  | .v6 s, .v6 e =>
    if s > e then .error .invalidRange else .ok ⟨.v6 s, .v6 e, false⟩
  | _, _ => .error .invalidRange

/-- The address increment of `next_address`: `+ 1` in the family's machine
width (wrapping, as Rust release-mode `u32`/`u128` addition). -/
def Ip.succWrap : Ip → Ip
  | .v4 n => .v4 ((n + 1) % 2 ^ 32)
  | .v6 n => .v6 ((n + 1) % 2 ^ 128)

/-- Model of `RangeFeeder::next_address` as explicit state passing: the
equality-with-end check happens before the increment. -/
def RangeFeeder.nextAddress (f : RangeFeeder) : Option Ip × RangeFeeder :=
  if f.finished then (none, f)
  else if f.current = f.endAddr then (some f.current, { f with finished := true })
  else (some f.current, { f with current := f.current.succWrap })

/-- `usize::MAX` on the 64-bit targets the crate builds for. -/
def USIZE_MAX : Nat := 2 ^ 64 - 1

/-- Model of `RangeFeeder::total_addresses`.  v4: `end - start + 1` computed
in wrapping `u32` arithmetic, then widened to `usize`.  v6: the same in
`u128`, then `as usize` (truncation to the low 64 bits), then
`.min(usize::MAX)`.  `e + (2 ^ w - s) + 1` is `e - s + 1` two's-complement
style so that the model is total even when `current > end`. -/
def RangeFeeder.totalAddresses (f : RangeFeeder) : Nat :=
  match f.current, f.endAddr with
  | .v4 s, .v4 e => (e + (2 ^ 32 - s) + 1) % 2 ^ 32
  | .v6 s, .v6 e => min (((e + (2 ^ 128 - s) + 1) % 2 ^ 128) % 2 ^ 64) USIZE_MAX
  | _, _ => 0

/-- Repeated calls of `next_address`: the list of the first `n` outcomes. -/
def runFeeder : RangeFeeder → Nat → List (Option Ip)
  | _, 0 => []
  | f, n + 1 =>
    match f.nextAddress with
    | (o, f') => o :: runFeeder f' n

/-! ## `src/config.rs` -/

/-- Model of `ScannerConfig`. -/
structure ScannerConfig where
  max_threads : Nat
  ping_timeout_ms : Nat
  scan_dead_hosts : Bool
  port_string : List Char
  use_requested_ports : Bool
  ping_count : Nat
  port_timeout_ms : Nat
  min_port_timeout_ms : Nat
  adapt_port_timeout : Bool
deriving DecidableEq

/-- The crate's `ScannerConfig::default()` (src/config.rs). -/
def ScannerConfig.default : ScannerConfig :=
  ⟨100, 2000, false, "80,443,8080,3389,22,23,21,25,110,139,445".toList, false, 3, 500, 100, true⟩

/-! ## `src/core/subject.rs` and `src/core/result.rs` -/

/-- Model of `ResultType`. -/
inductive ResultType where
  | unknown
  | dead
  | alive
  | withPorts
deriving DecidableEq

/-- Stand-ins for Rust `TypeId`s in the `Box<dyn Any>` side channel: a tag
type with decidable equality and an interpretation.  Two tags with the same
interpretation model two distinct Rust types of identical runtime content
(`u32` vs `u64`); `downcast_ref` compares tags, not interpretations. -/
inductive TypeTag where
  | tU32
  | tU64
  | tStr
  | tBool
deriving DecidableEq

/-- Interpretation of each tag. -/
@[reducible] def TypeTag.interp : TypeTag → Type
  | .tU32 => Nat
  | .tU64 => Nat
  | .tStr => List Char
  | .tBool => Bool

/-- Decidable equality on each interpretation. -/
def TypeTag.interpDecEq : (t : TypeTag) → DecidableEq t.interp
  | .tU32 => (inferInstance : DecidableEq Nat)
  | .tU64 => (inferInstance : DecidableEq Nat)
  | .tStr => (inferInstance : DecidableEq (List Char))
  | .tBool => (inferInstance : DecidableEq Bool)

instance (t : TypeTag) : DecidableEq t.interp := t.interpDecEq

/-- Model of a `Box<dyn Any + Send + Sync>` value. -/
def DynAny : Type := (t : TypeTag) × t.interp

instance : DecidableEq DynAny :=
  inferInstanceAs (DecidableEq ((t : TypeTag) × t.interp))

/-- Model of `ScanningSubject`.  The `HashMap<String, Box<dyn Any>>` is an
association list; insertion conses and lookup takes the first hit, which is
observationally `HashMap::insert`-then-`get` (most recent binding wins). -/
structure ScanningSubject where
  address : Ip
  config : ScannerConfig
  parameters : List (List Char × DynAny)
  result_type : ResultType
  aborted : Bool
  adapted_port_timeout : Option Nat
deriving DecidableEq

/-- Model of `ScanningSubject::new`. -/
def ScanningSubject.new (address : Ip) (config : ScannerConfig) : ScanningSubject :=
  ⟨address, config, [], .unknown, false, none⟩

/-- Model of `ScanningSubject::set_parameter`. -/
def ScanningSubject.set_parameter (s : ScanningSubject) (key : List Char) (v : DynAny) :
    ScanningSubject :=
  { s with parameters := (key, v) :: s.parameters }

/-- Model of `Any::downcast_ref::<T>`: the value when the stored type tag is
`T`'s, `none` otherwise. -/
def castTag (t : TypeTag) (v : DynAny) : Option t.interp :=
  if h : v.1 = t then some (h ▸ v.2) else none

/-- Model of `ScanningSubject::get_parameter::<T>`: look the key up, then
`downcast_ref` — `none` if the key is absent or the stored tag differs. -/
def ScanningSubject.get_parameter (t : TypeTag) (s : ScanningSubject) (key : List Char) :
    Option t.interp :=
  match s.parameters.find? (fun p => p.1 = key) with
  | none => none
  | some kv => castTag t kv.2

/-- Model of `ScanningSubject::set_result_type`. -/
def ScanningSubject.set_result_type (s : ScanningSubject) (r : ResultType) : ScanningSubject :=
  { s with result_type := r }

/-- Model of `ScanningSubject::abort`. -/
def ScanningSubject.abort (s : ScanningSubject) : ScanningSubject :=
  { s with aborted := true }

/-- Model of `ScanningSubject::is_aborted`. -/
def ScanningSubject.is_aborted (s : ScanningSubject) : Bool := s.aborted

/-- Model of `ScanningSubject::set_adapted_port_timeout`. -/
def ScanningSubject.set_adapted_port_timeout (s : ScanningSubject) (t : Nat) : ScanningSubject :=
  { s with adapted_port_timeout := some t }

/-- Model of the getter `ScanningSubject::adapted_port_timeout`:
the stored override, else the configured default. -/
def ScanningSubject.adaptedPortTimeout (s : ScanningSubject) : Nat :=
  s.adapted_port_timeout.getD s.config.port_timeout_ms

/-- Model of `ScanningResult` (the `HashMap<String, String>` of per-fetcher
outputs is an association list with cons-insert / first-hit lookup). -/
structure ScanningResult where
  address : Ip
  values : List (List Char × List Char)
  result_type : ResultType
  mac : Option (List Char)
deriving DecidableEq

/-- Model of `ScanningResult::new`. -/
def ScanningResult.new (address : Ip) : ScanningResult :=
  ⟨address, [], .unknown, none⟩

/-- Model of `ScanningResult::add_value`. -/
def ScanningResult.add_value (r : ScanningResult) (key value : List Char) : ScanningResult :=
  { r with values := (key, value) :: r.values }

/-- Model of `ScanningResult::get_value`. -/
def ScanningResult.get_value (r : ScanningResult) (key : List Char) : Option (List Char) :=
  (r.values.find? (fun p => p.1 = key)).map (fun p => p.2)

/-- Model of `ScanningResult::set_type`. -/
def ScanningResult.set_type (r : ScanningResult) (t : ResultType) : ScanningResult :=
  { r with result_type := t }

/-! ## `src/fetchers/ping.rs` -/

/-- Environment oracle for one host's liveness probing: whether
`Client::new` succeeds, and for each ping sequence number the round-trip
time in nanoseconds on success (`none` = timeout or error). -/
structure PingOracle where
  client : Except (List Char) Unit
  rtt : Nat → Option Nat

/-- The successful round-trip times accumulated by the `for seq in
0..ping_count` loop, in order. -/
def pingResults (cfg : ScannerConfig) (o : PingOracle) : List Nat :=
  (List.range cfg.ping_count).filterMap o.rtt

/-- `total_time / successful_pings` in `Duration` arithmetic
(truncating division on nanoseconds). -/
def pingAvgNanos (cfg : ScannerConfig) (o : PingOracle) : Nat :=
  (pingResults cfg o).sum / (pingResults cfg o).length

/-- `avg_time.as_millis()`: truncating conversion of the average to
milliseconds. -/
def pingAvgMs (cfg : ScannerConfig) (o : PingOracle) : Nat :=
  pingAvgNanos cfg o / 1000000

/-- Model of `PingFetcher::scan`.  `as_millis() as u64 * 3` is `u128`-to-`u64`
truncation followed by wrapping `u64` multiplication, hence the two
`% 2 ^ 64`. -/
def pingScan (cfg : ScannerConfig) (o : PingOracle) (subject : ScanningSubject) :
    Except ScanError (List Char) × ScanningSubject :=
  match o.client with
  | .error e => (.error (.pingFailed e), subject)
  | .ok _ =>
    let successful_pings := (pingResults cfg o).length
    if successful_pings > 0 then
      let subject := subject.set_result_type .alive
      let avgMs := pingAvgMs cfg o
      let subject :=
        if cfg.adapt_port_timeout then
          subject.set_adapted_port_timeout (max (avgMs % 2 ^ 64 * 3 % 2 ^ 64)
            cfg.min_port_timeout_ms)
        else subject
      (.ok (natDigits avgMs ++ (' ' :: ['m', 's'])), subject)
    else
      let subject := subject.set_result_type .dead
      let subject := if cfg.scan_dead_hosts then subject else subject.abort
      (.ok "[n/a]".toList, subject)

/-! ## `format_ports` in `src/fetchers/ports.rs` -/

/-- One emitted token of `format_ports`: `lo` for a singleton run,
`lo-hi` for a longer run. -/
def tokenOf (lo hi : Nat) : List Char :=
  if lo = hi then natDigits lo else natDigits lo ++ '-' :: natDigits hi

/-- The run-accumulating loop of `format_ports` (`lo`/`hi` are the Rust
`start`/`end` accumulators, the base case is the final push after the loop). -/
def formatGo (lo hi : Nat) : List Nat → List (List Char)
  | [] => [tokenOf lo hi]
  | p :: ps => if p = hi + 1 then formatGo lo p ps else tokenOf lo hi :: formatGo p p ps

/-- Model of `format_ports`: empty input gives the empty string, otherwise
run-length-encode and join with commas. -/
def format_ports : List Nat → List Char
  | [] => []
  | p :: ps => interChar ',' (formatGo p p ps)

/-! ## `src/fetchers/ports.rs` -/

/-- Model of `PortsFetcher::scan`.  `connect p` is the outcome oracle of the
timeout-bounded `TcpStream::connect` for port `p` on this host. -/
def portsScan (cfg : ScannerConfig) (connect : Nat → Bool) (subject : ScanningSubject) :
    Except ScanError (List Char) × ScanningSubject :=
  match PortIterator.new cfg.port_string with
  | .error e => (.error (.portScanFailed e), subject)
  | .ok ports =>
    if ports.isEmpty then (.ok "[n/s]".toList, subject)
    else
      let open_ports := ports.filter connect
      if open_ports.isEmpty then (.ok "[n/a]".toList, subject)
      else (.ok (format_ports open_ports), subject.set_result_type .withPorts)

/-! ## `src/core/scanner.rs` -/

/-- Model of one registered `Fetcher` as the scanner sees it: a stable id and
the `scan` action on the host's subject (with this host's environment oracle
already applied, as the Rust trait object captures its config). -/
structure Fetcher where
  id : List Char
  scan : ScanningSubject → Except ScanError (List Char) × ScanningSubject

/-- The `PingFetcher` as a chain element (`id()` is `"ping"`). -/
def pingFetcher (cfg : ScannerConfig) (o : PingOracle) : Fetcher :=
  ⟨"ping".toList, pingScan cfg o⟩

/-- The `PortsFetcher` as a chain element (`id()` is `"ports"`). -/
def portsFetcher (cfg : ScannerConfig) (connect : Nat → Bool) : Fetcher :=
  ⟨"ports".toList, portsScan cfg connect⟩

/-- The `for fetcher in registry.get_selected_fetchers()` loop of the spawned
task in `Scanner::scan`: an `Ok` value is recorded under the fetcher id, an
`Err` is only logged; after each fetcher the chain stops when the subject is
aborted and `scan_dead_hosts` is off.  Besides the result and the final
subject it returns the ids of the fetchers that actually ran. -/
def runChain (cfg : ScannerConfig) :
    List Fetcher → ScanningSubject → ScanningResult →
    ScanningResult × ScanningSubject × List (List Char)
  | [], subject, result => (result, subject, [])
  | f :: fs, subject, result =>
    match f.scan subject with
    | (r, subject') =>
      let result' :=
        match r with
        | .ok value => result.add_value f.id value
        | .error _ => result
      if subject'.is_aborted && !cfg.scan_dead_hosts then
        (result', subject', [f.id])
      else
        match runChain cfg fs subject' result' with
        | (res, subj, ids) => (res, subj, f.id :: ids)

/-- One spawned per-host task of `Scanner::scan`: fresh subject, fresh
result, run the selected chain, then stamp the subject's classification onto
the result. -/
def runHostTask (cfg : ScannerConfig) (fs : List Fetcher) (address : Ip) :
    ScanningResult × List (List Char) :=
  match runChain cfg fs (ScanningSubject.new address cfg) (ScanningResult.new address) with
  | (result, subject, ids) => (result.set_type subject.result_type, ids)

/-- Model of `Scanner::scan`'s dispatch-and-join behaviour: drain the feeder,
run one host task per address, and collect every task's result (the Rust body
always returns `Ok(results)` — nothing after feeder construction can produce
the `Err` arm).  `fuel` bounds the `while let` loop, which Lean's structural
recursion needs; with fuel at least the range size the feeder is drained.
Concurrency is modelled sequentially: each task is an independent pure
function of its address, so the collected multiset is scheduling-independent
(see also the executed-id lists returned per host). -/
def Scanner.scan (cfg : ScannerConfig) (fs : List Fetcher) :
    RangeFeeder → Nat → Except ScanError (List (ScanningResult × List (List Char)))
  | _, 0 => .ok []
  | feeder, fuel + 1 =>
    match feeder.nextAddress with
    | (none, _) => .ok []
    | (some address, feeder') =>
      match runHostTask cfg fs address with
      | (result, ids) =>
        match Scanner.scan cfg fs feeder' fuel with
        | .ok rest => .ok ((result, ids) :: rest)
        | .error e => .error e

/-! ## Helper lemmas -/

/-- The Rust `Scanner::scan` body has no reachable `Err` return: the model
always yields `Ok`. -/
theorem scan_always_ok (cfg : ScannerConfig) (fs : List Fetcher) (feeder : RangeFeeder)
    (fuel : Nat) : (Scanner.scan cfg fs feeder fuel).isOk = true := by
  induction fuel generalizing feeder with
  | zero => rfl
  | succ n ih =>
    simp only [Scanner.scan]
    cases hna : feeder.nextAddress with
    | mk o f' =>
      cases o with
      | none => rfl
      | some address =>
        have hok := ih f'
        cases hs : Scanner.scan cfg fs f' n with
        | ok rest => simp only [hs]; rfl
        | error e => rw [hs] at hok; exact Bool.noConfusion hok

/-- The first fetcher of a chain always runs: the executed-id list of a
nonempty chain starts with its id. -/
theorem runChain_head_runs (cfg : ScannerConfig) (f : Fetcher) (fs : List Fetcher)
    (subject : ScanningSubject) (result : ScanningResult) :
    ((runChain cfg (f :: fs) subject result).2.2).head? = some f.id := by
  rcases hscan : f.scan subject with ⟨r, subject'⟩
  simp only [runChain, hscan]
  cases r <;> split <;> rfl

/-- With `scan_dead_hosts` on, the break condition of the chain loop is never
taken: every selected fetcher runs. -/
theorem runChain_ids_all (cfg : ScannerConfig) (h : cfg.scan_dead_hosts = true) :
    ∀ (fs : List Fetcher) (subject : ScanningSubject) (result : ScanningResult),
      (runChain cfg fs subject result).2.2 = fs.map Fetcher.id := by
  intro fs
  induction fs with
  | nil => intro subject result; rfl
  | cons f fs ih =>
    intro subject result
    rcases hscan : f.scan subject with ⟨r, subject'⟩
    simp only [runChain, hscan]
    cases r <;> simp [h, ih]

/-- When every probe attempt fails, no round-trip samples accumulate. -/
theorem pingResults_eq_nil (cfg : ScannerConfig) (o : PingOracle)
    (hf : ∀ n, o.rtt n = none) : pingResults cfg o = [] := by
  unfold pingResults
  rw [show o.rtt = fun _ => none from funext hf]
  simp

/-- `PingFetcher::scan` when the client is built and zero pings succeed:
output is the `"[n/a]"` sentinel, the classification becomes `Dead`, and the
abort flag is set exactly when `scan_dead_hosts` is off. -/
theorem pingScan_all_fail (cfg : ScannerConfig) (o : PingOracle) (s : ScanningSubject)
    (hc : o.client = Except.ok ()) (hres : pingResults cfg o = []) :
    pingScan cfg o s =
      (.ok "[n/a]".toList,
        if cfg.scan_dead_hosts then s.set_result_type .dead
        else (s.set_result_type .dead).abort) := by
  unfold pingScan
  rw [hc, hres]
  simp

/-- `PingFetcher::scan` when the client is built, at least one ping succeeds
and `adapt_port_timeout` is on: classification `Alive`, the average in
milliseconds reported, and the adapted timeout stored on the subject. -/
theorem pingScan_success_adapt (cfg : ScannerConfig) (o : PingOracle) (s : ScanningSubject)
    (hc : o.client = Except.ok ()) (hs : 0 < (pingResults cfg o).length)
    (hA : cfg.adapt_port_timeout = true) :
    pingScan cfg o s =
      (.ok (natDigits (pingAvgMs cfg o) ++ (' ' :: ['m', 's'])),
        (s.set_result_type .alive).set_adapted_port_timeout
          (max (pingAvgMs cfg o % 2 ^ 64 * 3 % 2 ^ 64) cfg.min_port_timeout_ms)) := by
  unfold pingScan
  rw [hc]
  dsimp only
  rw [if_pos hs, hA]
  simp

/-- A port accepted by the model of `u16::from_str` fits in `u16`. -/
theorem parseU16_le (cs : List Char) (n : Nat) (h : parseU16 cs = some n) : n ≤ 65535 := by
  unfold parseU16 at h
  rcases cs with _ | ⟨c, rest⟩
  · simp at h
  · dsimp only at h
    rcases hds : (if c = '+' then rest else c :: rest) with _ | ⟨d, ds⟩ <;> rw [hds] at h
    · rw [if_pos rfl] at h
      simp at h
    · rw [if_neg (by simp)] at h
      cases hd : digitsAcc 0 (d :: ds) with
      | none => rw [hd] at h; simp at h
      | some m =>
        rw [hd] at h
        dsimp only at h
        by_cases hm : m ≤ 65535
        · rw [if_pos hm] at h
          injection h with h'
          omega
        · rw [if_neg hm] at h
          simp at h

/-- The two success shapes of one token of `PortIterator::new`: a single
port, or an in-order range that passed the cap check. -/
theorem parsePart_ok_shape (acc : List Nat) (part : List Char) (out : List Nat)
    (h : parsePart acc part = .ok out) :
    (∃ p, parseU16 (trim part) = some p ∧ out = acc ++ [p]) ∨
    (∃ r0 r1 lo hi, splitOnChar '-' (trim part) = [r0, r1] ∧
      parseU16 (trim r0) = some lo ∧ parseU16 (trim r1) = some hi ∧ lo ≤ hi ∧
      acc.length + (hi - lo + 1) ≤ 65535 ∧ out = acc ++ List.range' lo (hi - lo + 1)) := by
  unfold parsePart at h
  by_cases hdash : '-' ∈ trim part
  · rw [if_pos hdash] at h
    rcases hsplit : splitOnChar '-' (trim part) with _ | ⟨r0, tl⟩
    · rw [hsplit] at h; simp at h
    · rcases tl with _ | ⟨r1, tl2⟩
      · rw [hsplit] at h; simp at h
      · rcases tl2 with _ | ⟨r2, tl3⟩
        · rw [hsplit] at h
          dsimp only at h
          cases h0 : parseU16 (trim r0) with
          | none => rw [h0] at h; simp at h
          | some lo =>
            rw [h0] at h
            dsimp only at h
            cases h1 : parseU16 (trim r1) with
            | none => rw [h1] at h; simp at h
            | some hi =>
              rw [h1] at h
              dsimp only at h
              by_cases hord : lo > hi
              · rw [if_pos hord] at h; simp at h
              · rw [if_neg hord] at h
                by_cases hcap : acc.length + (hi - lo + 1) > MAX_PORTS
                · rw [if_pos hcap] at h; simp at h
                · rw [if_neg hcap] at h
                  injection h with h'
                  refine .inr ⟨r0, r1, lo, hi, rfl, h0, h1, by omega, ?_, h'.symm⟩
                  simp only [MAX_PORTS] at hcap
                  omega
        · rw [hsplit] at h; simp at h
  · rw [if_neg hdash] at h
    cases h0 : parseU16 (trim part) with
    | none => rw [h0] at h; simp at h
    | some p =>
      rw [h0] at h
      injection h with h'
      exact .inl ⟨p, rfl, h'.symm⟩

/-- Every port accumulated by the token loop fits in `u16`. -/
theorem parseParts_mem_le : ∀ (parts : List (List Char)) (acc out : List Nat),
    parseParts parts acc = .ok out → (∀ p ∈ acc, p ≤ 65535) → ∀ p ∈ out, p ≤ 65535 := by
  intro parts
  induction parts with
  | nil =>
    intro acc out h hacc
    injection h with h'
    exact h' ▸ hacc
  | cons part rest ih =>
    intro acc out h hacc
    unfold parseParts at h
    cases hp : parsePart acc part with
    | error e => rw [hp] at h; simp at h
    | ok acc' =>
      rw [hp] at h
      refine ih acc' out h ?_
      rcases parsePart_ok_shape acc part acc' hp with ⟨p, hp1, hout⟩ |
        ⟨r0, r1, lo, hi, _, _, hp2, _, _, hout⟩
      · subst hout
        intro q hq
        rcases List.mem_append.mp hq with hq | hq
        · exact hacc q hq
        · rw [List.mem_singleton] at hq
          exact hq ▸ parseU16_le _ _ hp1
      · subst hout
        intro q hq
        rcases List.mem_append.mp hq with hq | hq
        · exact hacc q hq
        · rcases List.mem_range'.mp hq with ⟨i, hi', rfl⟩
          have := parseU16_le _ _ hp2
          omega

/-- `dedup` does not change membership. -/
theorem mem_dedupConsec : ∀ (l : List Nat) (x : Nat), x ∈ dedupConsec l ↔ x ∈ l := by
  intro l
  induction l with
  | nil => simp [dedupConsec]
  | cons a l ih =>
    cases l with
    | nil => simp [dedupConsec]
    | cons b m =>
      intro x
      simp only [dedupConsec]
      split
      · rename_i hab
        subst hab
        rw [ih x]
        simp only [List.mem_cons]
        tauto
      · rw [List.mem_cons, ih x]
        simp [List.mem_cons]

/-- `dedup` keeps the head of a nonempty list. -/
theorem dedupConsec_head? : ∀ (m : List Nat) (b : Nat),
    (dedupConsec (b :: m)).head? = some b := by
  intro m
  induction m with
  | nil => intro b; rfl
  | cons c m ih =>
    intro b
    simp only [dedupConsec]
    split
    · rename_i h
      subst h
      exact ih b
    · rfl

/-- `dedup` of a weakly sorted list is strictly sorted. -/
theorem chain_lt_dedupConsec : ∀ (l : List Nat),
    List.Chain' (· ≤ ·) l → List.Chain' (· < ·) (dedupConsec l) := by
  intro l
  induction l with
  | nil => intro; simp [dedupConsec]
  | cons a l ih =>
    cases l with
    | nil => intro; simp [dedupConsec]
    | cons b m =>
      intro hch
      obtain ⟨hab, htail⟩ := List.chain'_cons.mp hch
      simp only [dedupConsec]
      split
      · exact ih htail
      · rename_i he
        rw [List.chain'_cons']
        refine ⟨?_, ih htail⟩
        intro y hy
        rw [dedupConsec_head? m b] at hy
        cases hy
        omega

/-- What a successful `PortIterator::new` returns: the deduplicated sort of
the accumulated expansion, within the cap. -/
theorem portIteratorNew_ok_shape (s : List Char) (l : List Nat)
    (h : PortIterator.new s = .ok l) :
    ∃ ports, parseParts (splitOnChar ',' s) [] = .ok ports ∧
      l = dedupConsec (sortList ports) ∧ l.length ≤ 65535 := by
  unfold PortIterator.new at h
  cases hp : parseParts (splitOnChar ',' s) [] with
  | error e => rw [hp] at h; simp at h
  | ok ports =>
    rw [hp] at h
    dsimp only at h
    split at h
    · simp at h
    · injection h with h'
      subst h'
      refine ⟨ports, rfl, rfl, ?_⟩
      simp only [MAX_PORTS] at *
      omega

/-! ## Decimal round trip and string lemmas (towards C7) -/

/-- The decimal representation is never empty. -/
theorem natDigits_ne_nil (n : Nat) : natDigits n ≠ [] := by
  rw [natDigits]
  split <;> simp

/-- Every character of a decimal representation is a digit. -/
theorem natDigits_mem : ∀ (n : Nat), ∀ c ∈ natDigits n, c ∈ digitChars := by
  intro n
  induction n using Nat.strong_induction_on with
  | _ n ih =>
    rw [natDigits]
    split
    · rename_i h
      intro c hc
      rw [List.mem_singleton] at hc
      subst hc
      have hall : ∀ d < 10, digitChar d ∈ digitChars := by decide
      exact hall n h
    · rename_i h
      intro c hc
      rw [List.mem_append] at hc
      rcases hc with hc | hc
      · exact ih (n / 10) (Nat.div_lt_self (by omega) (by omega)) c hc
      · rw [List.mem_singleton] at hc
        subst hc
        have hall : ∀ d < 10, digitChar d ∈ digitChars := by decide
        exact hall _ (Nat.mod_lt _ (by omega))

/-- Digit characters are not whitespace and differ from the separator and
sign characters the parser is sensitive to. -/
theorem mem_digitChars_props :
    ∀ c ∈ digitChars, isWs c = false ∧ c ≠ ',' ∧ c ≠ '-' ∧ c ≠ '+' := by decide

/-- The digit fold distributes over append. -/
theorem digitsAcc_append (xs ys : List Char) : ∀ acc, digitsAcc acc (xs ++ ys)
    = match digitsAcc acc xs with
      | none => none
      | some m => digitsAcc m ys := by
  induction xs with
  | nil => intro acc; rfl
  | cons c xs ih =>
    intro acc
    simp only [List.cons_append, digitsAcc]
    cases digitVal c with
    | none => rfl
    | some d => exact ih _

/-- Folding the decimal representation of `n` on top of `acc` yields
`acc` shifted by the digit count, plus `n`. -/
theorem digitsAcc_natDigits : ∀ (n acc : Nat),
    digitsAcc acc (natDigits n) = some (acc * 10 ^ (natDigits n).length + n) := by
  intro n
  induction n using Nat.strong_induction_on with
  | _ n ih =>
    intro acc
    rw [natDigits]
    split
    · rename_i h
      have hd : digitVal (digitChar n) = some n := by
        have hall : ∀ d < 10, digitVal (digitChar d) = some d := by decide
        exact hall n h
      simp [digitsAcc, hd]
    · rename_i h
      rw [digitsAcc_append]
      rw [ih (n / 10) (Nat.div_lt_self (by omega) (by omega)) acc]
      have hd : digitVal (digitChar (n % 10)) = some (n % 10) := by
        have hall : ∀ d < 10, digitVal (digitChar d) = some d := by decide
        exact hall _ (Nat.mod_lt _ (by omega))
      simp only [digitsAcc, hd]
      rw [List.length_append]
      congr 1
      have hdm : 10 * (n / 10) + n % 10 = n := Nat.div_add_mod n 10
      have hlen : (natDigits (n / 10)).length + [digitChar (n % 10)].length
          = (natDigits (n / 10)).length + 1 := by simp
      rw [hlen, pow_succ]
      calc (acc * 10 ^ (natDigits (n / 10)).length + n / 10) * 10 + n % 10
          = acc * (10 ^ (natDigits (n / 10)).length * 10)
              + (10 * (n / 10) + n % 10) := by ring
        _ = acc * (10 ^ (natDigits (n / 10)).length * 10) + n := by rw [hdm]

/-- `u16::from_str` parses back the decimal representation of any value in
range. -/
theorem parseU16_natDigits (n : Nat) (hn : n ≤ 65535) :
    parseU16 (natDigits n) = some n := by
  have hda : digitsAcc 0 (natDigits n) = some n := by
    rw [digitsAcc_natDigits n 0]
    simp
  rcases hrepr : natDigits n with _ | ⟨c, rest⟩
  · exact absurd hrepr (natDigits_ne_nil n)
  · have hcmem : c ∈ digitChars := by
      refine natDigits_mem n c ?_
      rw [hrepr]
      exact List.mem_cons_self _ _
    have hplus : ¬c = '+' := (mem_digitChars_props c hcmem).2.2.2
    rw [hrepr] at hda
    unfold parseU16
    dsimp only
    rw [if_neg hplus, if_neg (by simp), hda]
    dsimp only
    rw [if_pos hn]

/-- `dropWhile` is the identity on a list with no matching prefix at all. -/
theorem dropWhile_eq_self_of (l : List Char) (h : ∀ c ∈ l, isWs c = false) :
    l.dropWhile isWs = l := by
  cases l with
  | nil => rfl
  | cons a l =>
    rw [List.dropWhile_cons, h a (List.mem_cons_self _ _)]
    simp

/-- `trim` is the identity on whitespace-free strings. -/
theorem trim_eq_self (l : List Char) (h : ∀ c ∈ l, isWs c = false) : trim l = l := by
  unfold trim trimLeft trimRight
  rw [dropWhile_eq_self_of l h, dropWhile_eq_self_of l.reverse (by
    intro c hc
    exact h c (List.mem_reverse.mp hc)), List.reverse_reverse]

/-- `split` never returns an empty piece list. -/
theorem splitOnChar_ne_nil (c : Char) : ∀ (l : List Char), splitOnChar c l ≠ [] := by
  intro l
  induction l with
  | nil => simp [splitOnChar]
  | cons x xs ih =>
    simp only [splitOnChar]
    cases hs : splitOnChar c xs with
    | nil => simp
    | cons y ys => by_cases hx : x = c <;> simp [hx]

/-- `split` on a separator-free string is the single piece. -/
theorem splitOnChar_of_not_mem (c : Char) : ∀ (l : List Char), c ∉ l →
    splitOnChar c l = [l] := by
  intro l
  induction l with
  | nil => intro; rfl
  | cons x xs ih =>
    intro hmem
    have hx : ¬x = c := by
      intro hx
      exact hmem (hx ▸ List.mem_cons_self _ _)
    have hxs : c ∉ xs := fun hc => hmem (List.mem_cons_of_mem _ hc)
    simp only [splitOnChar, ih hxs]
    rw [if_neg hx]

/-- `split` past a separator-free prefix peels the prefix off. -/
theorem splitOnChar_append (c : Char) : ∀ (a b : List Char), c ∉ a →
    splitOnChar c (a ++ c :: b) = a :: splitOnChar c b := by
  intro a
  induction a with
  | nil =>
    intro b _
    simp only [List.nil_append, splitOnChar]
    cases hs : splitOnChar c b with
    | nil => exact absurd hs (splitOnChar_ne_nil c b)
    | cons y ys => simp
  | cons x xs ih =>
    intro b hmem
    have hx : ¬x = c := by
      intro hx
      exact hmem (hx ▸ List.mem_cons_self _ _)
    have hxs : c ∉ xs := fun hc => hmem (List.mem_cons_of_mem _ hc)
    have hrec : splitOnChar c (xs ++ c :: b) = xs :: splitOnChar c b := ih b hxs
    show splitOnChar c (x :: (xs ++ c :: b)) = _
    simp only [splitOnChar, List.append_eq, hrec]
    rw [if_neg hx]

/-- `split` is a left inverse of `join`-with-separator on separator-free
pieces. -/
theorem splitOnChar_interChar (c : Char) : ∀ (ts : List (List Char)), ts ≠ [] →
    (∀ t ∈ ts, c ∉ t) → splitOnChar c (interChar c ts) = ts := by
  intro ts
  induction ts with
  | nil => intro h; exact absurd rfl h
  | cons t ts ih =>
    intro _ hfree
    cases ts with
    | nil =>
      exact splitOnChar_of_not_mem c t (hfree t (List.mem_cons_self _ _))
    | cons t2 ts2 =>
      show splitOnChar c (t ++ c :: interChar c (t2 :: ts2)) = _
      rw [splitOnChar_append c t _ (hfree t (List.mem_cons_self _ _))]
      rw [ih (by simp) (fun u hu => hfree u (List.mem_cons_of_mem _ hu))]

/-- `format_ports`' run loop emits at least one token. -/
theorem formatGo_ne_nil : ∀ (ps : List Nat) (lo hi : Nat), formatGo lo hi ps ≠ [] := by
  intro ps
  induction ps with
  | nil => intro lo hi; simp [formatGo]
  | cons p ps ih =>
    intro lo hi
    simp only [formatGo]
    split
    · exact ih lo p
    · simp

/-- Characters of one emitted token: decimal digits and the dash. -/
theorem tokenOf_chars (lo hi : Nat) : ∀ ch ∈ tokenOf lo hi, ch ∈ digitChars ∨ ch = '-' := by
  intro ch hch
  unfold tokenOf at hch
  split at hch
  · exact .inl (natDigits_mem lo ch hch)
  · rw [List.mem_append] at hch
    rcases hch with hch | hch
    · exact .inl (natDigits_mem lo ch hch)
    · rw [List.mem_cons] at hch
      rcases hch with hch | hch
      · exact .inr hch
      · exact .inl (natDigits_mem hi ch hch)

/-- Characters of every token of the run loop: digits and the dash. -/
theorem formatGo_chars : ∀ (ps : List Nat) (lo hi : Nat), ∀ tok ∈ formatGo lo hi ps,
    ∀ ch ∈ tok, ch ∈ digitChars ∨ ch = '-' := by
  intro ps
  induction ps with
  | nil =>
    intro lo hi tok htok
    simp only [formatGo, List.mem_singleton] at htok
    subst htok
    exact tokenOf_chars lo hi
  | cons p ps ih =>
    intro lo hi tok htok
    simp only [formatGo] at htok
    split at htok
    · exact ih lo p tok htok
    · rw [List.mem_cons] at htok
      rcases htok with htok | htok
      · subst htok
        exact tokenOf_chars lo hi
      · exact ih p p tok htok

/-- Token characters are not whitespace and are not commas. -/
theorem tokChar_props (ch : Char) (h : ch ∈ digitChars ∨ ch = '-') :
    isWs ch = false ∧ ch ≠ ',' := by
  rcases h with h | h
  · exact ⟨(mem_digitChars_props ch h).1, (mem_digitChars_props ch h).2.1⟩
  · subst h
    exact ⟨by decide, by decide⟩

/-- Parsing one emitted token appends exactly the encoded run. -/
theorem parsePart_tokenOf (acc : List Nat) (lo hi : Nat) (hle : lo ≤ hi)
    (hhi : hi ≤ 65535) (hcap : acc.length + (hi - lo + 1) ≤ 65535) :
    parsePart acc (tokenOf lo hi) = .ok (acc ++ List.range' lo (hi - lo + 1)) := by
  have htrim : trim (tokenOf lo hi) = tokenOf lo hi :=
    trim_eq_self _ (fun c hc => (tokChar_props c (tokenOf_chars lo hi c hc)).1)
  by_cases heq : lo = hi
  · subst heq
    have htok : tokenOf lo lo = natDigits lo := by
      unfold tokenOf
      rw [if_pos rfl]
    have hdash : '-' ∉ natDigits lo := by
      intro hmem
      exact (mem_digitChars_props '-' (natDigits_mem lo '-' hmem)).2.2.1 rfl
    unfold parsePart
    rw [htrim, htok, if_neg hdash, parseU16_natDigits lo hhi]
    dsimp only
    rw [show lo - lo + 1 = 1 by omega]
    rfl
  · have hlt : lo < hi := by omega
    have htok : tokenOf lo hi = natDigits lo ++ '-' :: natDigits hi := by
      unfold tokenOf
      rw [if_neg heq]
    have hfree0 : '-' ∉ natDigits lo := by
      intro hmem
      exact (mem_digitChars_props '-' (natDigits_mem lo '-' hmem)).2.2.1 rfl
    have hfree1 : '-' ∉ natDigits hi := by
      intro hmem
      exact (mem_digitChars_props '-' (natDigits_mem hi '-' hmem)).2.2.1 rfl
    have htrim0 : trim (natDigits lo) = natDigits lo :=
      trim_eq_self _ (fun c hc => (mem_digitChars_props c (natDigits_mem lo c hc)).1)
    have htrim1 : trim (natDigits hi) = natDigits hi :=
      trim_eq_self _ (fun c hc => (mem_digitChars_props c (natDigits_mem hi c hc)).1)
    unfold parsePart
    rw [htrim, htok, if_pos (by simp), splitOnChar_append '-' _ _ hfree0,
      splitOnChar_of_not_mem '-' (natDigits hi) hfree1]
    dsimp only
    rw [htrim0, parseU16_natDigits lo (by omega)]
    dsimp only
    rw [htrim1, parseU16_natDigits hi hhi]
    dsimp only
    rw [if_neg (by omega), if_neg (by simp only [MAX_PORTS]; omega)]

/-- Re-parsing the emitted token sequence recovers exactly the encoded
ports, appended to the accumulator. -/
theorem parseParts_formatGo : ∀ (ps : List Nat) (lo hi : Nat) (acc : List Nat),
    lo ≤ hi → hi ≤ 65535 → (∀ p ∈ ps, p ≤ 65535) →
    List.Chain' (· < ·) (hi :: ps) →
    acc.length + (hi - lo + 1) + ps.length ≤ 65535 →
    parseParts (formatGo lo hi ps) acc
      = .ok (acc ++ List.range' lo (hi - lo + 1) ++ ps) := by
  intro ps
  induction ps with
  | nil =>
    intro lo hi acc hle hhi _ _ hcap
    show parseParts [tokenOf lo hi] acc = _
    unfold parseParts
    rw [parsePart_tokenOf acc lo hi hle hhi (by simpa using hcap)]
    simp [parseParts]
  | cons p ps ih =>
    intro lo hi acc hle hhi hmem hchain hcap
    obtain ⟨hhp, htail⟩ := List.chain'_cons.mp hchain
    by_cases hstep : p = hi + 1
    · show parseParts (formatGo lo hi (p :: ps)) acc = _
      simp only [formatGo, if_pos hstep]
      rw [ih lo p acc (by omega) (hmem p (List.mem_cons_self _ _))
        (fun q hq => hmem q (List.mem_cons_of_mem _ hq)) htail
        (by simp only [List.length_cons] at hcap; omega)]
      congr 1
      subst hstep
      rw [show hi + 1 - lo + 1 = (hi - lo + 1) + 1 by omega, List.range'_concat,
        show lo + 1 * (hi - lo + 1) = hi + 1 by omega]
      simp
    · simp only [formatGo, if_neg hstep]
      show parseParts (tokenOf lo hi :: formatGo p p ps) acc = _
      unfold parseParts
      rw [parsePart_tokenOf acc lo hi hle hhi
        (by simp only [List.length_cons] at hcap; omega)]
      dsimp only
      rw [ih p p (acc ++ List.range' lo (hi - lo + 1)) (le_refl p)
        (hmem p (List.mem_cons_self _ _))
        (fun q hq => hmem q (List.mem_cons_of_mem _ hq)) htail
        (by
          simp only [List.length_append, List.length_range', List.length_cons] at hcap ⊢
          omega)]
      congr 1
      rw [show p - p + 1 = 1 by omega]
      simp

/-- `sort_unstable` leaves an already sorted list unchanged. -/
theorem sortList_eq_self (l : List Nat) (h : List.Chain' (· ≤ ·) l) : sortList l = l := by
  unfold sortList
  refine List.Sorted.insertionSort_eq ?_
  rw [List.chain'_iff_pairwise] at h
  exact h

/-- `dedup` leaves a strictly ascending list unchanged. -/
theorem dedupConsec_eq_self : ∀ (l : List Nat), List.Chain' (· < ·) l →
    dedupConsec l = l := by
  intro l
  induction l with
  | nil => intro; rfl
  | cons a l ih =>
    cases l with
    | nil => intro; rfl
    | cons b m =>
      intro h
      obtain ⟨hab, ht⟩ := List.chain'_cons.mp h
      simp only [dedupConsec]
      rw [if_neg (show ¬a = b by omega), ih ht]

/-- Each accepted token grows the accumulated expansion by at least one. -/
theorem parseParts_length : ∀ (parts : List (List Char)) (acc out : List Nat),
    parseParts parts acc = .ok out → acc.length + parts.length ≤ out.length := by
  intro parts
  induction parts with
  | nil =>
    intro acc out h
    injection h with h'
    subst h'
    simp
  | cons part rest ih =>
    intro acc out h
    unfold parseParts at h
    cases hp : parsePart acc part with
    | error e => rw [hp] at h; simp at h
    | ok acc' =>
      rw [hp] at h
      have hrec := ih acc' out h
      have hgrow : acc.length + 1 ≤ acc'.length := by
        rcases parsePart_ok_shape acc part acc' hp with ⟨q, _, hout⟩ |
          ⟨r0, r1, lo, hi, _, _, _, _, _, hout⟩ <;> subst hout <;>
          simp [List.length_append, List.length_range']
      simp only [List.length_cons] at *
      omega

/-- `dedup` of a nonempty list is nonempty. -/
theorem dedupConsec_ne_nil (l : List Nat) (h : l ≠ []) : dedupConsec l ≠ [] := by
  cases l with
  | nil => exact absurd rfl h
  | cons b m =>
    intro hcontra
    have := dedupConsec_head? m b
    rw [hcontra] at this
    simp at this

/-- A successful parse never yields the empty port list (which is why the
`is_empty` branch of the ports fetcher is unreachable). -/
theorem portIteratorNew_ok_ne_nil (s : List Char) (l : List Nat)
    (h : PortIterator.new s = .ok l) : l ≠ [] := by
  obtain ⟨ports, hp, hl, _⟩ := portIteratorNew_ok_shape s l h
  subst hl
  refine dedupConsec_ne_nil _ ?_
  have hlen := parseParts_length _ [] ports hp
  have hparts : splitOnChar ',' s ≠ [] := splitOnChar_ne_nil ',' s
  have hlen2 : (sortList ports).length = ports.length :=
    (List.perm_insertionSort (· ≤ ·) ports).length_eq
  intro hcontra
  rw [hcontra] at hlen2
  simp only [List.length_nil] at hlen2
  have : 0 < (splitOnChar ',' s).length := List.length_pos.mpr hparts
  simp only [List.length_nil] at hlen
  omega

/-- The invariants of a successful parse: strictly ascending, within the
cap, all entries in `u16` range. -/
theorem portIteratorNew_invariants (s : List Char) (l : List Nat)
    (h : PortIterator.new s = .ok l) :
    List.Chain' (· < ·) l ∧ l.length ≤ 65535 ∧ ∀ p ∈ l, p ≤ 65535 := by
  obtain ⟨ports, hp, hl, hlen⟩ := portIteratorNew_ok_shape s l h
  subst hl
  refine ⟨?_, hlen, ?_⟩
  · apply chain_lt_dedupConsec
    exact List.Pairwise.chain' (List.sorted_insertionSort (· ≤ ·) ports)
  · intro p hp'
    rw [mem_dedupConsec] at hp'
    have hmem : p ∈ ports :=
      (List.perm_insertionSort (· ≤ ·) ports).mem_iff.mp hp'
    exact parseParts_mem_le _ [] ports hp (by simp) p hmem

/-! ## C7 -/

/-- C7: re-parsing the compressed (`format_ports`) rendering of any
successful parse yields exactly the same port list (hence the same set).
`compress` of the empty list is the empty string by definition of
`format_ports`; the empty list never arises from a successful parse. -/
theorem portIterator_format_roundtrip (s : List Char) (l : List Nat)
    (h : PortIterator.new s = .ok l) :
    PortIterator.new (format_ports l) = .ok l := by
  obtain ⟨hchain, hlen, hmem⟩ := portIteratorNew_invariants s l h
  have hne := portIteratorNew_ok_ne_nil s l h
  rcases l with _ | ⟨p, ps⟩
  · exact absurd rfl hne
  · have htokens : splitOnChar ',' (format_ports (p :: ps)) = formatGo p p ps := by
      show splitOnChar ',' (interChar ',' (formatGo p p ps)) = _
      refine splitOnChar_interChar ',' _ (formatGo_ne_nil ps p p) ?_
      intro t ht hc
      exact (tokChar_props ',' (formatGo_chars ps p p t ht ',' hc)).2 rfl
    have hparse : parseParts (formatGo p p ps) []
        = .ok (([] : List Nat) ++ List.range' p (p - p + 1) ++ ps) := by
      refine parseParts_formatGo ps p p [] (le_refl p)
        (hmem p (List.mem_cons_self _ _))
        (fun q hq => hmem q (List.mem_cons_of_mem _ hq)) hchain ?_
      simp only [List.length_nil, List.length_cons] at hlen ⊢
      omega
    have hexp : ([] : List Nat) ++ List.range' p (p - p + 1) ++ ps = p :: ps := by
      rw [show p - p + 1 = 1 by omega]
      simp
    unfold PortIterator.new
    rw [htokens, hparse, hexp]
    dsimp only
    rw [sortList_eq_self _ (hchain.imp (fun _ _ hab => le_of_lt hab)),
      dedupConsec_eq_self _ hchain,
      if_neg (by simp only [List.length_cons, MAX_PORTS] at hlen ⊢; omega)]

/-- Witness for C7 at the spec `"22,80-82,443"`. -/
theorem portIterator_format_roundtrip_witness :
    PortIterator.new (format_ports [22, 80, 81, 82, 443]) = .ok [22, 80, 81, 82, 443] :=
  portIterator_format_roundtrip "22,80-82,443".toList [22, 80, 81, 82, 443] rfl

/-! ## C3 -/

/-- C3: every successful parse is strictly ascending (hence duplicate-free)
with at most 65535 entries, all fitting in `u16`.  Since `parse` is total
(every spec is accepted or rejected), this is equivalent to: any spec whose
deduplicated expansion would exceed the cap is rejected with a parse error
rather than materialised. -/
theorem portIterator_strictly_ascending_capped (s : List Char) (l : List Nat)
    (h : PortIterator.new s = .ok l) :
    List.Chain' (· < ·) l ∧ l.length ≤ 65535 ∧ ∀ p ∈ l, p ≤ 65535 :=
  portIteratorNew_invariants s l h

/-- Witness for C3 at the spec `"22,80-82,443"`. -/
theorem portIterator_strictly_ascending_capped_witness :
    List.Chain' (· < ·) [22, 80, 81, 82, 443] ∧
      ([22, 80, 81, 82, 443] : List Nat).length ≤ 65535 ∧
      ∀ p ∈ ([22, 80, 81, 82, 443] : List Nat), p ≤ 65535 :=
  portIterator_strictly_ascending_capped "22,80-82,443".toList [22, 80, 81, 82, 443] rfl

/-- `downcast_ref` at the stored tag returns the stored value. -/
theorem castTag_self (t : TypeTag) (v : t.interp) : castTag t ⟨t, v⟩ = some v := by
  unfold castTag
  rw [dif_pos rfl]

/-- `downcast_ref` at a different tag returns `none`. -/
theorem castTag_ne (t t' : TypeTag) (h : t' ≠ t) (v : t'.interp) :
    castTag t ⟨t', v⟩ = none := by
  unfold castTag
  exact dif_neg h

/-- `get_parameter` right after `set_parameter` on the same key is
`downcast_ref` of the just-stored value. -/
theorem get_parameter_set (t : TypeTag) (s : ScanningSubject) (key : List Char) (v : DynAny) :
    (s.set_parameter key v).get_parameter t key = castTag t v := by
  unfold ScanningSubject.get_parameter ScanningSubject.set_parameter
  dsimp only
  rw [List.find?_cons_of_pos _ (by simp)]

/-! ## C8 -/

/-- C8 (code bug): for the v6 range from `::` to the address with integer
value `2 ^ 64` — `2 ^ 64 + 1` addresses, more than `usize::MAX` —
`total_addresses` returns 1: the `as usize` cast truncates before the
intended `.min(usize::MAX)` saturation (which is a no-op), so the estimate
wraps instead of saturating. -/
theorem totalAddresses_truncates_large_v6 :
    (RangeFeeder.new (Ip.v6 0) (Ip.v6 (2 ^ 64))).map RangeFeeder.totalAddresses
        = Except.ok 1 ∧
      2 ^ 64 - 0 + 1 > USIZE_MAX := by
  constructor
  · rfl
  · decide

/-! ## C6 -/

/-- C6 (code bug): the empty port specification is not answered with the
`"[n/s]"` sentinel: `PortIterator::new("")` fails on the empty token
("Invalid port number: "), so `PortsFetcher::scan` with an empty
`port_string` returns a `PortScanFailed` error — the `is_empty` branch that
would produce `"[n/s]"` is never reached. -/
theorem empty_port_spec_errors_not_sentinel :
    PortIterator.new ([] : List Char) = .error (.invalidPortNumber []) ∧
    (portsScan { ScannerConfig.default with port_string := [] } (fun _ => false)
          (ScanningSubject.new (Ip.v4 3232235521)
            { ScannerConfig.default with port_string := [] })).1
        = .error (.portScanFailed (.invalidPortNumber [])) :=
  ⟨rfl, rfl⟩

/-! ## C10 -/

/-- C10: `get_parameter::<T>` is total (returns an `Option`, never faults):
`none` when the key is absent, `none` when the most recently stored value
for the key has a different dynamic type, and exactly the most recently
stored value when the type matches. -/
theorem get_parameter_total_lookup (s : ScanningSubject) (key : List Char) (t : TypeTag) :
    ((∀ p ∈ s.parameters, p.1 ≠ key) → s.get_parameter t key = none) ∧
    (∀ (t' : TypeTag) (w : t'.interp), t' ≠ t →
      (s.set_parameter key ⟨t', w⟩).get_parameter t key = none) ∧
    (∀ v : t.interp, (s.set_parameter key ⟨t, v⟩).get_parameter t key = some v) := by
  refine ⟨?_, ?_, ?_⟩
  · intro habs
    have hnone : s.parameters.find? (fun p => p.1 = key) = none := by
      rw [List.find?_eq_none]
      intro p hp
      simpa using habs p hp
    unfold ScanningSubject.get_parameter
    rw [hnone]
  · intro t' w hne
    rw [get_parameter_set]
    exact castTag_ne t t' hne w
  · intro v
    rw [get_parameter_set]
    exact castTag_self t v

/-- Witness for C10 at a concrete subject, key and tags. -/
theorem get_parameter_total_lookup_witness :
    (ScanningSubject.new (Ip.v4 1) ScannerConfig.default).get_parameter .tU32 ['k'] = none ∧
    ((ScanningSubject.new (Ip.v4 1) ScannerConfig.default).set_parameter ['k']
        ⟨.tU64, (7 : Nat)⟩).get_parameter .tU32 ['k'] = none ∧
    ((ScanningSubject.new (Ip.v4 1) ScannerConfig.default).set_parameter ['k']
        ⟨.tU32, (42 : Nat)⟩).get_parameter .tU32 ['k'] = some 42 := by
  obtain ⟨h1, h2, h3⟩ :=
    get_parameter_total_lookup (ScanningSubject.new (Ip.v4 1) ScannerConfig.default) ['k'] .tU32
  exact ⟨h1 (by intro p hp; simp [ScanningSubject.new] at hp),
    h2 .tU64 (7 : Nat) (by decide), h3 (42 : Nat)⟩

/-! ## C1 -/

/-- C1 (counterexample): with the invalid port specification `"80-70"`
(established invalid in the first conjunct), `Scanner::scan` does not return
the failure — it returns `Ok` with a result for the host — and the pipeline
does run a probe (the ports fetcher executed; its id is in the executed
list). -/
theorem scan_with_invalid_port_spec_returns_ok_and_runs_probes :
    PortIterator.new "80-70".toList = .error (.invalidRangeOrder 80 70) ∧
    Scanner.scan { ScannerConfig.default with port_string := "80-70".toList }
        [portsFetcher { ScannerConfig.default with port_string := "80-70".toList }
          (fun _ => false)]
        ⟨Ip.v4 3232235521, Ip.v4 3232235521, false⟩ 2
      = .ok [(⟨Ip.v4 3232235521, [], .unknown, none⟩, ["ports".toList])] :=
  ⟨rfl, rfl⟩

/-- C1 (amended): an invalid port specification is not a construction-time
failure of `scan`.  It surfaces per host, inside the Ports probe, as a
`PortScanFailed` error that leaves the subject untouched and is absorbed by
the scanner (the host's result merely lacks a ports entry); `scan` itself
always returns `Ok`, and the first selected probe of every host's chain
still runs. -/
theorem invalid_port_spec_is_absorbed_probe_failure (cfg : ScannerConfig)
    (e : PortParseError) (h : PortIterator.new cfg.port_string = .error e) :
    (∀ (connect : Nat → Bool) (subject : ScanningSubject),
        portsScan cfg connect subject = (.error (.portScanFailed e), subject)) ∧
    (∀ (fs : List Fetcher) (feeder : RangeFeeder) (fuel : Nat),
        (Scanner.scan cfg fs feeder fuel).isOk = true) ∧
    (∀ (f : Fetcher) (fs : List Fetcher) (subject : ScanningSubject)
        (result : ScanningResult),
        ((runChain cfg (f :: fs) subject result).2.2).head? = some f.id) := by
  refine ⟨?_, fun fs feeder fuel => scan_always_ok cfg fs feeder fuel,
    fun f fs subject result => runChain_head_runs cfg f fs subject result⟩
  intro connect subject
  unfold portsScan
  rw [h]

/-- Witness for the amended C1 at the concrete invalid spec `"80-70"`. -/
theorem invalid_port_spec_is_absorbed_probe_failure_witness :
    portsScan { ScannerConfig.default with port_string := "80-70".toList } (fun _ => false)
        (ScanningSubject.new (Ip.v4 1)
          { ScannerConfig.default with port_string := "80-70".toList })
      = (.error (.portScanFailed (.invalidRangeOrder 80 70)),
          ScanningSubject.new (Ip.v4 1)
            { ScannerConfig.default with port_string := "80-70".toList }) :=
  (invalid_port_spec_is_absorbed_probe_failure
    { ScannerConfig.default with port_string := "80-70".toList }
    (.invalidRangeOrder 80 70) rfl).1 _ _

/-! ## C4 -/

/-- C4: with `adapt_port_timeout` on and at least one successful ping, the
host's subsequent port-probe bound (the subject's
`adapted_port_timeout()`) equals `max(avg_ms * 3, min_port_timeout_ms)`
where `avg_ms` is this host's observed average round trip in milliseconds
(the `3 * r` of the claim); the bound is a pure function of this host's
oracle and subject alone.  When no adapted value was stored the getter
falls back to the configured `port_timeout_ms`. -/
theorem ping_adapts_port_timeout (cfg : ScannerConfig) (o : PingOracle)
    (s : ScanningSubject) (hc : o.client = Except.ok ())
    (hs : 0 < (pingResults cfg o).length) (hA : cfg.adapt_port_timeout = true)
    (hr : pingAvgMs cfg o * 3 < 2 ^ 64) :
    ScanningSubject.adaptedPortTimeout ((pingScan cfg o s).2)
        = max (pingAvgMs cfg o * 3) cfg.min_port_timeout_ms ∧
    (∀ s' : ScanningSubject, s'.adapted_port_timeout = none →
      ScanningSubject.adaptedPortTimeout s' = s'.config.port_timeout_ms) := by
  constructor
  · rw [pingScan_success_adapt cfg o s hc hs hA]
    have h1 : pingAvgMs cfg o < 2 ^ 64 := by omega
    rw [Nat.mod_eq_of_lt h1, Nat.mod_eq_of_lt hr]
    rfl
  · intro s' h'
    unfold ScanningSubject.adaptedPortTimeout
    rw [h']
    rfl

/-- Witness for C4: one ping of 5 000 000 ns gives a 5 ms average; the bound
is `max(15, 100) = 100`. -/
theorem ping_adapts_port_timeout_witness :
    ScanningSubject.adaptedPortTimeout
        ((pingScan { ScannerConfig.default with ping_count := 1 }
            ⟨Except.ok (), fun _ => some 5000000⟩
            (ScanningSubject.new (Ip.v4 1)
              { ScannerConfig.default with ping_count := 1 })).2)
      = max (pingAvgMs { ScannerConfig.default with ping_count := 1 }
            ⟨Except.ok (), fun _ => some 5000000⟩ * 3)
          ({ ScannerConfig.default with ping_count := 1 } : ScannerConfig).min_port_timeout_ms :=
  (ping_adapts_port_timeout { ScannerConfig.default with ping_count := 1 }
    ⟨Except.ok (), fun _ => some 5000000⟩
    (ScanningSubject.new (Ip.v4 1) { ScannerConfig.default with ping_count := 1 })
    rfl (by decide) rfl (by decide)).1

/-! ## C5 -/

/-- C5: when the client builds and every liveness probe fails, the liveness
output is the `"[n/a]"` sentinel and the classification is `Dead`; with
`scan_dead_hosts = false` the host's chain executes nothing after the ping
fetcher (its result is exactly the Dead record with the single ping entry),
and with `scan_dead_hosts = true` every selected probe still runs
(the executed ids are the whole chain, whatever the remaining fetchers
do). -/
theorem dead_host_sentinel_and_abort (cfg : ScannerConfig) (o : PingOracle) (addr : Ip)
    (rest : List Fetcher) (hc : o.client = Except.ok ()) (hf : ∀ n, o.rtt n = none) :
    (pingScan cfg o (ScanningSubject.new addr cfg)).1 = .ok "[n/a]".toList ∧
    ((pingScan cfg o (ScanningSubject.new addr cfg)).2).result_type = .dead ∧
    (cfg.scan_dead_hosts = false →
      runHostTask cfg (pingFetcher cfg o :: rest) addr =
        (⟨addr, [("ping".toList, "[n/a]".toList)], .dead, none⟩, ["ping".toList])) ∧
    (cfg.scan_dead_hosts = true →
      (runHostTask cfg (pingFetcher cfg o :: rest) addr).2
        = "ping".toList :: rest.map Fetcher.id) := by
  have hres := pingResults_eq_nil cfg o hf
  refine ⟨?_, ?_, ?_, ?_⟩
  · rw [pingScan_all_fail cfg o _ hc hres]
  · rw [pingScan_all_fail cfg o _ hc hres]
    cases hsd : cfg.scan_dead_hosts <;>
      simp [hsd, ScanningSubject.set_result_type, ScanningSubject.abort]
  · intro hsd
    unfold runHostTask
    simp only [runChain, pingFetcher]
    rw [pingScan_all_fail cfg o _ hc hres, hsd]
    simp [ScanningSubject.is_aborted, ScanningSubject.abort, ScanningSubject.set_result_type,
      ScanningSubject.new, ScanningResult.new, ScanningResult.add_value, ScanningResult.set_type]
  · intro hsd
    unfold runHostTask
    have hids := runChain_ids_all cfg hsd (pingFetcher cfg o :: rest)
      (ScanningSubject.new addr cfg) (ScanningResult.new addr)
    rcases hrec : runChain cfg (pingFetcher cfg o :: rest)
        (ScanningSubject.new addr cfg) (ScanningResult.new addr) with ⟨res, subj, ids⟩
    rw [hrec] at hids
    simpa [pingFetcher] using hids

/-- Witness for C5: the all-fail oracle against the default config (where
`scan_dead_hosts` is off) and against the same config with it on. -/
theorem dead_host_sentinel_and_abort_witness :
    runHostTask ScannerConfig.default
        [pingFetcher ScannerConfig.default ⟨Except.ok (), fun _ => none⟩] (Ip.v4 1)
      = (⟨Ip.v4 1, [("ping".toList, "[n/a]".toList)], .dead, none⟩, ["ping".toList]) ∧
    (runHostTask { ScannerConfig.default with scan_dead_hosts := true }
        [pingFetcher { ScannerConfig.default with scan_dead_hosts := true }
          ⟨Except.ok (), fun _ => none⟩] (Ip.v4 1)).2
      = ["ping".toList] := by
  constructor
  · exact (dead_host_sentinel_and_abort ScannerConfig.default
      ⟨Except.ok (), fun _ => none⟩ (Ip.v4 1) [] rfl (fun _ => rfl)).2.2.1 rfl
  · have h := (dead_host_sentinel_and_abort
      { ScannerConfig.default with scan_dead_hosts := true }
      ⟨Except.ok (), fun _ => none⟩ (Ip.v4 1) [] rfl (fun _ => rfl)).2.2.2 rfl
    simpa using h

/-! ## C2 -/

/-- Iterating an unfinished v4 feeder state with `current <= end < 2 ^ 32`
yields every address of `[current, end]` in ascending order, then
end-of-sequence; the equality check preceding the increment means the
increment is only taken strictly below `end`, so no wraparound occurs. -/
theorem runFeeder_v4 : ∀ (n c e : Nat), c ≤ e → e < 2 ^ 32 → e - c = n →
    runFeeder ⟨.v4 c, .v4 e, false⟩ (n + 2)
      = (List.range' c (n + 1)).map (fun k => some (Ip.v4 k)) ++ [none] := by
  intro n
  induction n with
  | zero =>
    intro c e hce _ hsub
    have hec : e = c := by omega
    subst hec
    simp [runFeeder, RangeFeeder.nextAddress]
  | succ n ih =>
    intro c e hce hlt hsub
    have hne : c ≠ e := by omega
    have hstep : (⟨Ip.v4 c, Ip.v4 e, false⟩ : RangeFeeder).nextAddress
        = (some (Ip.v4 c), ⟨Ip.v4 (c + 1), Ip.v4 e, false⟩) := by
      have hmod : (c + 1) % 2 ^ 32 = c + 1 := Nat.mod_eq_of_lt (by omega)
      simp [RangeFeeder.nextAddress, Ip.succWrap, hne, hmod]
      omega
    have hrec := ih (c + 1) e (by omega) hlt (by omega)
    show runFeeder ⟨Ip.v4 c, Ip.v4 e, false⟩ (n + 2 + 1) = _
    rw [runFeeder, hstep]
    show some (Ip.v4 c) :: runFeeder ⟨Ip.v4 (c + 1), Ip.v4 e, false⟩ (n + 2) = _
    rw [hrec, List.range'_succ c (n + 1) 1, List.map_cons, List.cons_append]

/-- The v6 analogue of `runFeeder_v4` (width `2 ^ 128`). -/
theorem runFeeder_v6 : ∀ (n c e : Nat), c ≤ e → e < 2 ^ 128 → e - c = n →
    runFeeder ⟨.v6 c, .v6 e, false⟩ (n + 2)
      = (List.range' c (n + 1)).map (fun k => some (Ip.v6 k)) ++ [none] := by
  intro n
  induction n with
  | zero =>
    intro c e hce _ hsub
    have hec : e = c := by omega
    subst hec
    simp [runFeeder, RangeFeeder.nextAddress]
  | succ n ih =>
    intro c e hce hlt hsub
    have hne : c ≠ e := by omega
    have hstep : (⟨Ip.v6 c, Ip.v6 e, false⟩ : RangeFeeder).nextAddress
        = (some (Ip.v6 c), ⟨Ip.v6 (c + 1), Ip.v6 e, false⟩) := by
      have hmod : (c + 1) % 2 ^ 128 = c + 1 := Nat.mod_eq_of_lt (by omega)
      simp [RangeFeeder.nextAddress, Ip.succWrap, hne, hmod]
      omega
    have hrec := ih (c + 1) e (by omega) hlt (by omega)
    show runFeeder ⟨Ip.v6 c, Ip.v6 e, false⟩ (n + 2 + 1) = _
    rw [runFeeder, hstep]
    show some (Ip.v6 c) :: runFeeder ⟨Ip.v6 (c + 1), Ip.v6 e, false⟩ (n + 2) = _
    rw [hrec, List.range'_succ c (n + 1) 1, List.map_cons, List.cons_append]

/-- C2: for every same-family range with `start <= end` (and `end` inside
the family's address space), construction succeeds and repeated
`next_address` emits each address from `start` to `end` exactly once, in
ascending order (`List.range' start (end - start + 1)`), followed by
end-of-sequence — in particular the maximal address of the space is still
emitted and iteration terminates without wraparound (take
`e = 2 ^ 32 - 1` or `2 ^ 128 - 1`). -/
theorem rangeFeeder_emits_each_address_once (fam : Bool) (s e : Nat) (hse : s ≤ e)
    (he : e < if fam then 2 ^ 128 else 2 ^ 32) :
    ∃ f, RangeFeeder.new (if fam then Ip.v6 s else Ip.v4 s)
          (if fam then Ip.v6 e else Ip.v4 e) = .ok f ∧
      runFeeder f (e - s + 2)
        = (List.range' s (e - s + 1)).map
            (fun k => some (if fam then Ip.v6 k else Ip.v4 k)) ++ [none] := by
  cases fam with
  | false =>
    refine ⟨⟨Ip.v4 s, Ip.v4 e, false⟩, ?_, ?_⟩
    · simp only [if_false, Bool.false_eq_true, RangeFeeder.new]
      rw [if_neg (by omega)]
    · simpa using runFeeder_v4 (e - s) s e hse (by simpa using he) rfl
  | true =>
    refine ⟨⟨Ip.v6 s, Ip.v6 e, false⟩, ?_, ?_⟩
    · simp only [if_true, RangeFeeder.new]
      rw [if_neg (by omega)]
    · simpa using runFeeder_v6 (e - s) s e hse (by simpa using he) rfl

/-- Witness for C2 at the very top of the v4 space: the range
`[2 ^ 32 - 2, 2 ^ 32 - 1]` still emits the maximal v4 address and then
terminates. -/
theorem rangeFeeder_emits_each_address_once_witness :
    ∃ f, RangeFeeder.new (Ip.v4 (2 ^ 32 - 2)) (Ip.v4 (2 ^ 32 - 1)) = .ok f ∧
      runFeeder f (2 ^ 32 - 1 - (2 ^ 32 - 2) + 2)
        = (List.range' (2 ^ 32 - 2) (2 ^ 32 - 1 - (2 ^ 32 - 2) + 1)).map
            (fun k => some (Ip.v4 k)) ++ [none] := by
  simpa using rangeFeeder_emits_each_address_once false (2 ^ 32 - 2) (2 ^ 32 - 1)
    (by norm_num) (by norm_num)

end IpscanRs
